import Mathlib

set_option maxHeartbeats 1000000
set_option maxRecDepth 8000

/-!
Shallow embedding of the PSO (particle swarm optimization) engine of the
ensmallen/mlpack repository:

* `InertiaWeight.Update` embeds the velocity-update policy of
  `inertia_weight.hpp` (class `InertiaWeight`, member `Update`): two uniform
  random matrices `r1`, `r2` of the cube's slice shape are drawn once per
  call, and for each particle `i < dimension` the velocity slice `i` is
  rewritten using the scalar linear elements `bestParticlePosition[i]` and
  `bestSwarmPosition[i]` (armadillo `operator[]`, an unchecked linear
  element access).

* `Optimize` embeds `PSOType::Optimize` of `pso_impl.hpp`: positions and
  velocities are initialized to `dimension` copies of the caller's
  `iterate`, the best positions are initialized from slice 0, the loop runs
  `maxIterations` times, each iteration sweeps all particles, updates the
  individual and global bests, updates velocities and positions, and
  terminates early when the last evaluated objective is strictly below
  `tolerance`.

Real scalars are modelled as rationals.  Fallible memory accesses (armadillo
unchecked element reads, `slice(0)` of an empty cube, the read of the
uninitialized local `currentObjective`) are modelled in the `Option` monad.
The run result additionally carries ghost instrumentation (iteration count,
evaluation count, per-iteration history) that records what the loop did
without altering the modelled behaviour.
-/

/-- A dense 2-D real matrix (`arma::mat`): a shape and a flat list of
entries in linear (column-major) order. -/
structure Mat where
  rows : Nat
  cols : Nat
  data : List ℚ
deriving DecidableEq, Repr

namespace Mat

/-- Elementwise matrix addition (`+` on `arma::mat`). -/
def add (a b : Mat) : Mat := ⟨a.rows, a.cols, List.zipWith (fun x y => x + y) a.data b.data⟩

/-- Elementwise matrix subtraction (`-` on `arma::mat`). -/
def sub (a b : Mat) : Mat := ⟨a.rows, a.cols, List.zipWith (fun x y => x - y) a.data b.data⟩

/-- Scalar times matrix (`double * arma::mat`). -/
def smul (s : ℚ) (a : Mat) : Mat := ⟨a.rows, a.cols, a.data.map (fun x => s * x)⟩

/-- Elementwise (Schur) product (`%` on `arma::mat`). -/
def hadamard (a b : Mat) : Mat := ⟨a.rows, a.cols, List.zipWith (fun x y => x * y) a.data b.data⟩

/-- Scalar minus matrix, broadcast elementwise (`double - arma::mat`). -/
def scalarSub (s : ℚ) (a : Mat) : Mat := ⟨a.rows, a.cols, a.data.map (fun x => s - x)⟩

/-- Unchecked linear element access (`arma::mat::operator[]`): defined only
inside the element count, modelled as `Option`. -/
def lin (a : Mat) (i : Nat) : Option ℚ := a.data.get? i

end Mat

/-- `DBL_MAX`, the initial value of `lastObjectiveIndividual` and
`lastObjectiveGlobal` in `PSOType::Optimize`. -/
def DBL_MAX : ℚ := ((2 ^ 1024 - 2 ^ 971 : Nat) : ℚ)

/-- A fresh uniform random matrix of shape `R × C`
(`arma::mat r(R, C, arma::fill::randu)`): entries are the consecutive draws
`rng idx, rng (idx+1), ...` of the process-wide random stream. -/
def drawMat (rng : Nat → ℚ) (idx R C : Nat) : Mat :=
  ⟨R, C, (List.range (R * C)).map (fun j => rng (idx + j))⟩

/-- The updated velocity of particle `i` in `InertiaWeight::Update`
(`inertia_weight.hpp`, loop body): `ω·v + c1·r1 % (pb[i] - p) + c2·r2 % (gb[i] - p)`
where `pb[i]`, `gb[i]` are the scalar linear elements of the best matrices. -/
def inertiaAt (positions vels : List Mat) (bp bs : Mat) (w c1 c2 : ℚ)
    (r1 r2 : Mat) (i : Nat) : Option Mat := do
  let p ← positions.get? i
  let v ← vels.get? i
  let pb ← bp.lin i
  let gb ← bs.lin i
  some (Mat.add
    (Mat.add (Mat.smul w v) (Mat.smul c1 (Mat.hadamard r1 (Mat.scalarSub pb p))))
    (Mat.smul c2 (Mat.hadamard r2 (Mat.scalarSub gb p))))

/-- The particle loop of `InertiaWeight::Update`: performs the updates for
particles `0, ..., n-1` in ascending order, each rewriting velocity slice
`i` from position slice `i` and the scalar elements `bp[i]`, `bs[i]`. -/
def inertiaLoop (positions : List Mat) (bp bs : Mat) (w c1 c2 : ℚ)
    (r1 r2 : Mat) : Nat → List Mat → Option (List Mat)
  | 0, vels => some vels
  | n + 1, vels => do
      let out ← inertiaLoop positions bp bs w c1 c2 r1 r2 n vels
      let p ← positions.get? n
      let v ← out.get? n
      let pb ← bp.lin n
      let gb ← bs.lin n
      some (out.set n (Mat.add
        (Mat.add (Mat.smul w v) (Mat.smul c1 (Mat.hadamard r1 (Mat.scalarSub pb p))))
        (Mat.smul c2 (Mat.hadamard r2 (Mat.scalarSub gb p)))))

namespace InertiaWeight

/-- `InertiaWeight::Update` (`inertia_weight.hpp`): draws the two uniform
random matrices `r1` and `r2` (shape = the cube's `n_rows × n_cols`,
given here as `R`, `C`) once from the stream, then runs the particle loop.
Returns the rewritten velocity slices. -/
def Update (rng : Nat → ℚ) (idx R C : Nat) (positions vels : List Mat)
    (bp bs : Mat) (w c1 c2 : ℚ) (dimension : Nat) : Option (List Mat) :=
  let r1 := drawMat rng idx R C
  let r2 := drawMat rng (idx + R * C) R C
  inertiaLoop positions bp bs w c1 c2 r1 r2 dimension vels

end InertiaWeight

/-- The configuration stored by `PSOType` (constructor arguments of
`pso.hpp`): `dimension` is the population size. -/
structure PSOConfig where
  dimension : Nat
  interiaWeight : ℚ
  cognitiveAcceleration : ℚ
  socialAcceleration : ℚ
  maxIterations : Nat
  tolerance : ℚ
deriving DecidableEq, Repr

/-- Ghost record of one loop iteration: the objective values evaluated
during the particle sweep, the values of `lastObjectiveIndividual`,
`lastObjectiveGlobal`, `bestParticlePosition`, `bestSwarmPosition` after
the global-best update step, and the positions/velocities after the
position update. -/
structure IterRecord where
  evals : List ℚ
  indAfter : ℚ
  globalAfter : ℚ
  bpAfter : Mat
  bsAfter : Mat
  posAfter : List Mat
  velAfter : List Mat
deriving DecidableEq, Repr

/-- The mutable state of one `PSOType::Optimize` run: the particle cubes
(slice lists), the best matrices, the two best objective trackers, the
local `currentObjective` (`none` while still uninitialized), the position
of the random stream, and ghost instrumentation. -/
structure PSOState where
  positions : List Mat
  velocities : List Mat
  bp : Mat
  bs : Mat
  lastInd : ℚ
  lastGlobal : ℚ
  cur : Option ℚ
  idx : Nat
  evals : Nat
  itersRun : Nat
  iterEvals : List ℚ
  history : List IterRecord
deriving DecidableEq, Repr

/-- What `PSOType::Optimize` produces: the returned objective value, the
contents of the by-reference `iterate` argument on return (the
implementation never assigns to it after reading it), and ghost data:
iterations run, evaluations performed, final `lastObjectiveGlobal`, final
`currentObjective`, final `bestSwarmPosition`, and the iteration history. -/
structure RunResult where
  value : ℚ
  iterate : Mat
  itersRun : Nat
  evals : Nat
  lastGlobal : ℚ
  lastCur : Option ℚ
  bestPosition : Mat
  history : List IterRecord
deriving DecidableEq, Repr

/-- Build the returned `RunResult` from the state at the return point. -/
def mkResult (v : ℚ) (iterate : Mat) (st : PSOState) : RunResult :=
  ⟨v, iterate, st.itersRun, st.evals, st.lastGlobal, st.cur, st.bs, st.history⟩

/-- The particle sweep of one iteration (`pso_impl.hpp`, inner `k` loop):
evaluates particles `0, ..., n-1` in ascending order, setting
`currentObjective` to each value and updating `bestParticlePosition` /
`lastObjectiveIndividual` when the value is a strict improvement. -/
def sweepLoop (f : Mat → ℚ) : Nat → PSOState → Option PSOState
  | 0, st => some st
  | n + 1, st => do
      let s ← sweepLoop f n st
      let p ← s.positions.get? n
      let v := f p
      let s := { s with cur := some v, evals := s.evals + 1,
                        iterEvals := s.iterEvals ++ [v] }
      some (if v < s.lastInd then { s with bp := p, lastInd := v } else s)

/-- One iteration of the `pso_impl.hpp` outer loop body before the
termination check: particle sweep, global-best update, velocity update via
`InertiaWeight::Update` (which draws `r1`, `r2` of the cube's slice shape,
i.e. the shape of `iterate`), and the position update
`particlePosition = particlePosition + particleVelocity`. -/
def psoIterate (cfg : PSOConfig) (f : Mat → ℚ) (rng : Nat → ℚ)
    (iterate : Mat) (st : PSOState) : Option PSOState := do
  let s ← sweepLoop f cfg.dimension { st with iterEvals := [] }
  let s := if s.lastInd < s.lastGlobal then
             { s with bs := s.bp, lastGlobal := s.lastInd } else s
  let n := iterate.rows * iterate.cols
  let vels ← InertiaWeight.Update rng s.idx iterate.rows iterate.cols
    s.positions s.velocities s.bp s.bs
    cfg.interiaWeight cfg.cognitiveAcceleration cfg.socialAcceleration cfg.dimension
  let pos := List.zipWith Mat.add s.positions vels
  some { s with
    positions := pos, velocities := vels, idx := s.idx + 2 * n,
    itersRun := s.itersRun + 1,
    history := s.history ++
      [⟨s.iterEvals, s.lastInd, s.lastGlobal, s.bp, s.bs, pos, vels⟩] }

/-- The outer iteration loop of `PSOType::Optimize`, with the remaining
iteration count as fuel: when the fuel is spent the loop exits and
`lastObjectiveGlobal` is returned; otherwise one iteration runs and the
termination check reads `currentObjective` (undefined, hence `none`, if no
particle was ever evaluated) and returns it when it is strictly below
`tolerance`. -/
def psoLoop (cfg : PSOConfig) (f : Mat → ℚ) (rng : Nat → ℚ)
    (iterate : Mat) : Nat → PSOState → Option RunResult
  | 0, st => some (mkResult st.lastGlobal iterate st)
  | n + 1, st => do
      let s ← psoIterate cfg f rng iterate st
      let c ← s.cur
      if c < cfg.tolerance then some (mkResult c iterate s)
      else psoLoop cfg f rng iterate n s

/-- `PSOType::Optimize` (`pso_impl.hpp`): after reseeding (modelled by the
given stream `rng`), positions and velocities are set to `dimension` copies
of `iterate`, the best matrices are initialized from slice 0 of the
position cube (undefined when the cube has no slices), both objective
trackers start at `DBL_MAX`, and the loop runs `maxIterations` times.  The
by-reference `iterate` argument is never reassigned by the implementation,
so the result's `iterate` field holds the caller's original matrix. -/
def Optimize (cfg : PSOConfig) (f : Mat → ℚ) (rng : Nat → ℚ)
    (iterate : Mat) : Option RunResult := do
  let positions := List.replicate cfg.dimension iterate
  let velocities := List.replicate cfg.dimension iterate
  let bp ← positions.get? 0
  let bs ← positions.get? 0
  psoLoop cfg f rng iterate cfg.maxIterations
    ⟨positions, velocities, bp, bs, DBL_MAX, DBL_MAX, none, 0, 0, 0, [], []⟩

/-- Claim C3's velocity formula, modelled from the claim's words: the two
random matrices are drawn once and reused across every particle, and the
personal-best and global-best matrices enter as full 2-D matrices with
elementwise matrix subtraction against each particle's position. -/
def UpdateSpecC3 (rng : Nat → ℚ) (idx R C : Nat) (positions vels : List Mat)
    (bp bs : Mat) (w c1 c2 : ℚ) (dimension : Nat) : Option (List Mat) :=
  let r1 := drawMat rng idx R C
  let r2 := drawMat rng (idx + R * C) R C
  (List.range dimension).mapM (fun k => do
    let p ← positions.get? k
    let v ← vels.get? k
    some (Mat.add
      (Mat.add (Mat.smul w v) (Mat.smul c1 (Mat.hadamard r1 (Mat.sub bp p))))
      (Mat.smul c2 (Mat.hadamard r2 (Mat.sub bs p)))))

/-- The per-iteration global-best values in a run history are
non-increasing: a later record's `globalAfter` is at most an earlier one's. -/
def GlobalMono (hist : List IterRecord) : Prop :=
  ∀ s t rs rt, s ≤ t → hist.get? s = some rs → hist.get? t = some rt →
    rt.globalAfter ≤ rs.globalAfter

/-- Each record's `globalAfter` is a lower bound of every objective value
evaluated in that iteration and in all earlier iterations. -/
def GlobalBelowEvals (hist : List IterRecord) : Prop :=
  ∀ s t rs rt, s ≤ t → hist.get? s = some rs → hist.get? t = some rt →
    ∀ v ∈ rs.evals, rt.globalAfter ≤ v

/-- The loop invariant behind claim C6, at iteration boundaries. -/
def Inv6 (st : PSOState) : Prop :=
  GlobalMono st.history ∧ GlobalBelowEvals st.history ∧
  (∀ s rs, st.history.get? s = some rs → ∀ v ∈ rs.evals, st.lastInd ≤ v) ∧
  (∀ s rs, st.history.get? s = some rs → st.lastGlobal ≤ rs.globalAfter)

/-- Personal-best and global-best tracking coincide in every record of a
run history, both in objective value and in position. -/
def Coincide (hist : List IterRecord) : Prop :=
  ∀ rec ∈ hist, rec.indAfter = rec.globalAfter ∧ rec.bpAfter = rec.bsAfter

/-! ### Concrete inputs used in counterexamples and witnesses -/

/-- A small configuration: one particle, inertia 1, zero accelerations, one
iteration, tolerance 1. -/
def cfgW : PSOConfig := ⟨1, 1, 0, 0, 1, 1⟩

/-- A 1×1 starting point holding 0. -/
def itW : Mat := ⟨1, 1, [0]⟩

/-- The constant-zero objective. -/
def fW : Mat → ℚ := fun _ => 0

/-- The constant-zero random stream. -/
def rngW : Nat → ℚ := fun _ => 0

/-- The result of `Optimize cfgW fW rngW itW`, written out. -/
def rW : RunResult :=
  ⟨0, itW, 1, 1, 0, some 0, ⟨1, 1, [0]⟩,
   [⟨[0], 0, 0, ⟨1, 1, [0]⟩, ⟨1, 1, [0]⟩, [⟨1, 1, [0]⟩], [⟨1, 1, [0]⟩]⟩]⟩

/-- Configuration for the C1 run: one particle, inertia 1, zero
accelerations, two iterations, tolerance -10 (never triggers). -/
def cfgC1 : PSOConfig := ⟨1, 1, 0, 0, 2, -10⟩

/-- Starting point for the C1 run. -/
def itC1 : Mat := ⟨1, 1, [2]⟩

/-- Objective for the C1 run: the negation of the first entry, so the
objective improves as the particle drifts. -/
def fC1 : Mat → ℚ := fun m => -(m.data.headI)

/-- Configuration with `maxIterations = 0` for the C2 run. -/
def cfgC2 : PSOConfig := ⟨1, 1, 0, 0, 0, 1⟩

/-- Configuration with two particles for the C4 counterexample: the 1×1
starting point has fewer elements than the population size. -/
def cfgC4 : PSOConfig := ⟨2, 1, 0, 0, 1, 1⟩

/-- A 2×1 zero matrix. -/
def zeroC3 : Mat := ⟨2, 1, [0, 0]⟩

/-- A 2×1 best matrix with distinct entries 3 and 5, separating the scalar
element broadcast from the full-matrix subtraction. -/
def bpC3 : Mat := ⟨2, 1, [3, 5]⟩

/-- The constant-one random stream. -/
def rngOne : Nat → ℚ := fun _ => 1

/-- A state whose `currentObjective` is still uninitialized, used to
exercise the termination check with a zero population. -/
def stC10 : PSOState := ⟨[], [], itW, itW, DBL_MAX, DBL_MAX, none, 0, 0, 0, [], []⟩

/-- Configuration with `populationSize = 0` and one iteration. -/
def cfgC10 : PSOConfig := ⟨0, 1, 0, 0, 1, 1⟩

/-! ### Basic list access lemmas -/

theorem lt_of_get?_eq_some {α : Type} :
    ∀ (l : List α) (n : Nat) (a : α), l.get? n = some a → n < l.length
  | [], n, a, h => by simp [List.get?] at h
  | _ :: _, 0, _, _ => by simp
  | _ :: xs, n + 1, a, h => by
      simpa using Nat.succ_lt_succ (lt_of_get?_eq_some xs n a (by simpa using h))

theorem get?_eq_some_of_lt {α : Type} :
    ∀ (l : List α) (n : Nat), n < l.length → ∃ a, l.get? n = some a
  | [], n, h => absurd h (by simp)
  | x :: _, 0, _ => ⟨x, rfl⟩
  | _ :: xs, n + 1, h => get?_eq_some_of_lt xs n (by simpa using h)

theorem get?_replicate_of_lt {α : Type} (a : α) :
    ∀ (n k : Nat), k < n → (List.replicate n a).get? k = some a
  | _ + 1, 0, _ => rfl
  | n + 1, k + 1, h => get?_replicate_of_lt a n k (Nat.lt_of_succ_lt_succ h)

/-! ### Lemmas about the velocity-update loop -/

theorem inertiaLoop_length (positions : List Mat) (bp bs : Mat) (w c1 c2 : ℚ) (r1 r2 : Mat) :
    ∀ (n : Nat) (vels out : List Mat),
      inertiaLoop positions bp bs w c1 c2 r1 r2 n vels = some out → out.length = vels.length
  | 0, vels, out, h => by
      simp only [inertiaLoop, Option.some.injEq] at h
      rw [← h]
  | n + 1, vels, out, h => by
      simp only [inertiaLoop, Option.bind_eq_bind, Option.bind_eq_some, Option.some.injEq] at h
      obtain ⟨o1, h1, p, hp, v, hv, pb, hpb, gb, hgb, hout⟩ := h
      rw [← hout, List.length_set]
      exact inertiaLoop_length positions bp bs w c1 c2 r1 r2 n vels o1 h1

theorem inertiaLoop_get? (positions : List Mat) (bp bs : Mat) (w c1 c2 : ℚ) (r1 r2 : Mat) :
    ∀ (n : Nat) (vels out : List Mat),
      inertiaLoop positions bp bs w c1 c2 r1 r2 n vels = some out →
      ∀ j, out.get? j =
        if j < n then inertiaAt positions vels bp bs w c1 c2 r1 r2 j else vels.get? j
  | 0, vels, out, h, j => by
      simp only [inertiaLoop, Option.some.injEq] at h
      simp [← h]
  | n + 1, vels, out, h, j => by
      simp only [inertiaLoop, Option.bind_eq_bind, Option.bind_eq_some, Option.some.injEq] at h
      obtain ⟨o1, h1, p, hp, v, hv, pb, hpb, gb, hgb, hout⟩ := h
      have ih := inertiaLoop_get? positions bp bs w c1 c2 r1 r2 n vels o1 h1
      have hvels : vels.get? n = some v := by
        have hn := ih n
        rw [if_neg (lt_irrefl n)] at hn
        rw [← hn, hv]
      by_cases hj : j = n
      · subst hj
        rw [← hout, List.get?_set_eq, hv, if_pos (Nat.lt_succ_self j)]
        simp only [inertiaAt, Option.bind_eq_bind, hp, Option.some_bind, hvels, hpb, hgb]
        rfl
      · rw [← hout, List.get?_set_ne _ _ (fun hh => hj hh.symm), ih j]
        by_cases hlt : j < n
        · rw [if_pos hlt, if_pos (Nat.lt_succ_of_lt hlt)]
        · rw [if_neg hlt, if_neg (by omega)]

theorem inertiaLoop_bp_bound (positions : List Mat) (bp bs : Mat) (w c1 c2 : ℚ) (r1 r2 : Mat) :
    ∀ (n : Nat) (vels out : List Mat),
      inertiaLoop positions bp bs w c1 c2 r1 r2 n vels = some out →
      ∀ i, i < n → i < bp.data.length
  | 0, _, _, _, _, hi => absurd hi (by simp)
  | n + 1, vels, out, h, i, hi => by
      simp only [inertiaLoop, Option.bind_eq_bind, Option.bind_eq_some, Option.some.injEq] at h
      obtain ⟨o1, h1, p, hp, v, hv, pb, hpb, gb, hgb, hout⟩ := h
      by_cases hin : i = n
      · subst hin
        exact lt_of_get?_eq_some bp.data i pb hpb
      · exact inertiaLoop_bp_bound positions bp bs w c1 c2 r1 r2 n vels o1 h1 i (by omega)

theorem inertiaLoop_isSome_of (positions : List Mat) (bp bs : Mat) (w c1 c2 : ℚ) (r1 r2 : Mat) :
    ∀ (n : Nat) (vels : List Mat),
      (∀ i, i < n →
        i < positions.length ∧ i < vels.length ∧ i < bp.data.length ∧ i < bs.data.length) →
      ∃ out, inertiaLoop positions bp bs w c1 c2 r1 r2 n vels = some out
  | 0, vels, _ => ⟨vels, rfl⟩
  | n + 1, vels, hb => by
      obtain ⟨o1, h1⟩ := inertiaLoop_isSome_of positions bp bs w c1 c2 r1 r2 n vels
        (fun i hi => hb i (Nat.lt_succ_of_lt hi))
      obtain ⟨hpl, hvl, hbpl, hbsl⟩ := hb n (Nat.lt_succ_self n)
      obtain ⟨p, hp⟩ := get?_eq_some_of_lt positions n hpl
      obtain ⟨v, hv⟩ := get?_eq_some_of_lt o1 n
        (by rw [inertiaLoop_length positions bp bs w c1 c2 r1 r2 n vels o1 h1]; exact hvl)
      obtain ⟨pb, hpb⟩ := get?_eq_some_of_lt bp.data n hbpl
      obtain ⟨gb, hgb⟩ := get?_eq_some_of_lt bs.data n hbsl
      refine ⟨o1.set n (Mat.add
        (Mat.add (Mat.smul w v) (Mat.smul c1 (Mat.hadamard r1 (Mat.scalarSub pb p))))
        (Mat.smul c2 (Mat.hadamard r2 (Mat.scalarSub gb p)))), ?_⟩
      simp only [inertiaLoop, Option.bind_eq_bind, h1, Option.some_bind, hp, hv, Mat.lin,
        hpb, hgb]

/-! ### Lemmas about the particle sweep -/

theorem sweepLoop_facts (f : Mat → ℚ) :
    ∀ (n : Nat) (st s' : PSOState), sweepLoop f n st = some s' →
      s'.positions = st.positions ∧ s'.velocities = st.velocities ∧ s'.bs = st.bs ∧
      s'.lastGlobal = st.lastGlobal ∧ s'.history = st.history ∧ s'.idx = st.idx ∧
      s'.itersRun = st.itersRun ∧ s'.lastInd ≤ st.lastInd ∧
      (st.lastInd ≤ s'.lastInd → s'.bp = st.bp ∧ s'.lastInd = st.lastInd) ∧
      ∃ l, s'.iterEvals = st.iterEvals ++ l ∧ l.length = n ∧
        (∀ v ∈ l, s'.lastInd ≤ v) ∧ (n = 0 → s' = st) ∧
        (l ≠ [] → s'.cur = l.getLast?)
  | 0, st, s', h => by
      simp only [sweepLoop, Option.some.injEq] at h
      subst h
      exact ⟨rfl, rfl, rfl, rfl, rfl, rfl, rfl, le_refl _, fun _ => ⟨rfl, rfl⟩,
        [], by simp, rfl, by simp, fun _ => rfl, by simp⟩
  | n + 1, st, s', h => by
      simp only [sweepLoop, Option.bind_eq_bind, Option.bind_eq_some, Option.some.injEq] at h
      obtain ⟨s, hrec, p, hp, hif⟩ := h
      obtain ⟨hpos, hvel, hbs, hg, hh, hidx, hit, hle, hbpk, l, hev, hlen, hub, _, _⟩ :=
        sweepLoop_facts f n st s hrec
      by_cases hc : f p < s.lastInd
      · rw [if_pos hc] at hif
        subst hif
        refine ⟨hpos, hvel, hbs, hg, hh, hidx, hit, ?_, ?_, l ++ [f p], ?_, ?_, ?_, ?_, ?_⟩
        · exact le_trans (le_of_lt hc) hle
        · intro hge
          exact absurd (lt_of_lt_of_le hc (le_trans hle hge)) (lt_irrefl _)
        · simp only [hev, List.append_assoc]
        · simp [hlen]
        · intro v hv
          rcases List.mem_append.mp hv with hv | hv
          · exact le_trans (le_of_lt hc) (hub v hv)
          · simp only [List.mem_singleton] at hv
            subst hv
            exact le_refl _
        · intro hz
          exact absurd hz (Nat.succ_ne_zero n)
        · intro _
          simp [List.getLast?_concat]
      · rw [if_neg hc] at hif
        subst hif
        refine ⟨hpos, hvel, hbs, hg, hh, hidx, hit, hle, ?_, l ++ [f p], ?_, ?_, ?_, ?_, ?_⟩
        · intro hge
          obtain ⟨hbp, hli⟩ := hbpk hge
          exact ⟨hbp, hli⟩
        · simp only [hev, List.append_assoc]
        · simp [hlen]
        · intro v hv
          rcases List.mem_append.mp hv with hv | hv
          · exact hub v hv
          · simp only [List.mem_singleton] at hv
            subst hv
            exact le_of_not_lt hc
        · intro hz
          exact absurd hz (Nat.succ_ne_zero n)
        · intro _
          simp [List.getLast?_concat]

/-! ### Lemmas about one loop iteration -/

theorem psoIterate_facts (cfg : PSOConfig) (f : Mat → ℚ) (rng : Nat → ℚ) (iterate : Mat)
    (st st' : PSOState) (h : psoIterate cfg f rng iterate st = some st') :
    ∃ l,
      st'.history = st.history ++
        [⟨l, st'.lastInd, st'.lastGlobal, st'.bp, st'.bs, st'.positions, st'.velocities⟩] ∧
      st'.lastGlobal = (if st'.lastInd < st.lastGlobal then st'.lastInd else st.lastGlobal) ∧
      st'.bs = (if st'.lastInd < st.lastGlobal then st'.bp else st.bs) ∧
      st'.lastInd ≤ st.lastInd ∧
      (st.lastInd ≤ st'.lastInd → st'.bp = st.bp) ∧
      (∀ v ∈ l, st'.lastInd ≤ v) ∧ l.length = cfg.dimension ∧
      (l ≠ [] → st'.cur = l.getLast?) ∧ (l = [] → st'.cur = st.cur) ∧
      st'.itersRun = st.itersRun + 1 ∧ st'.iterEvals = l := by
  simp only [psoIterate, Option.bind_eq_bind, Option.bind_eq_some, Option.some.injEq] at h
  obtain ⟨s, hsw, vels, hupd, hst'⟩ := h
  obtain ⟨hpos, hvel, hbs, hg, hh, hidx, hit, hle, hbpk, l, hev, hlen, hub, hz, hcur⟩ :=
    sweepLoop_facts f cfg.dimension { st with iterEvals := [] } s hsw
  simp only [List.nil_append] at hev
  by_cases hc : s.lastInd < s.lastGlobal
  · rw [if_pos hc] at hupd hst'
    subst hst'
    refine ⟨l, ?_, ?_, ?_, hle, ?_, hub, hlen, hcur, ?_, by simp [hit], by simp [hev]⟩
    · simp [hh, hev]
    · simp only [PSOState.lastGlobal, PSOState.lastInd]
      rw [if_pos (by rw [← hg]; exact hc)]
    · simp only [PSOState.bs, PSOState.lastInd, PSOState.bp]
      rw [if_pos (by rw [← hg]; exact hc)]
    · intro hge
      exact (hbpk hge).1
    · intro hnil
      have hd : cfg.dimension = 0 := by rw [← hlen, hnil]; rfl
      have hs : s = { st with iterEvals := [] } := hz hd
      simp [hs]
  · rw [if_neg hc] at hupd hst'
    subst hst'
    refine ⟨l, ?_, ?_, ?_, hle, ?_, hub, hlen, hcur, ?_, by simp [hit], by simp [hev]⟩
    · simp [hh, hev, hg, hbs]
    · simp only [PSOState.lastGlobal, PSOState.lastInd]
      rw [if_neg (by rw [← hg]; exact hc), hg]
    · simp only [PSOState.bs, PSOState.lastInd]
      rw [if_neg (by rw [← hg]; exact hc), hbs]
    · intro hge
      exact (hbpk hge).1
    · intro hnil
      have hd : cfg.dimension = 0 := by rw [← hlen, hnil]; rfl
      have hs : s = { st with iterEvals := [] } := hz hd
      simp [hs]

/-! ### Lemmas about the outer loop -/

theorem get?_append_concat {α : Type} (L : List α) (a : α) (t : Nat) (x : α)
    (h : (L ++ [a]).get? t = some x) :
    (t < L.length ∧ L.get? t = some x) ∨ (t = L.length ∧ x = a) := by
  have htlt := lt_of_get?_eq_some _ _ _ h
  rw [List.length_append, List.length_singleton] at htlt
  by_cases hx : t < L.length
  · exact Or.inl ⟨hx, by rw [← List.get?_append hx]; exact h⟩
  · have ht : t = L.length := by omega
    subst ht
    rw [List.get?_concat_length] at h
    exact Or.inr ⟨rfl, by injection h with h; exact h.symm⟩

theorem psoLoop_char (cfg : PSOConfig) (f : Mat → ℚ) (rng : Nat → ℚ) (iterate : Mat) :
    ∀ (n : Nat) (st : PSOState) (r : RunResult),
      psoLoop cfg f rng iterate n st = some r →
      (∃ c, r.lastCur = some c ∧ c < cfg.tolerance ∧ r.value = c) ∨
      (r.value = r.lastGlobal ∧ r.itersRun = st.itersRun + n)
  | 0, st, r, h => by
      simp only [psoLoop, Option.some.injEq] at h
      subst h
      exact Or.inr ⟨rfl, rfl⟩
  | n + 1, st, r, h => by
      simp only [psoLoop, Option.bind_eq_bind, Option.bind_eq_some] at h
      obtain ⟨s, hiter, c, hcur, hif⟩ := h
      by_cases hc : c < cfg.tolerance
      · rw [if_pos hc] at hif
        injection hif with hif
        subst hif
        exact Or.inl ⟨c, by simp [mkResult, hcur], hc, rfl⟩
      · rw [if_neg hc] at hif
        rcases psoLoop_char cfg f rng iterate n s r hif with h1 | ⟨h2, h3⟩
        · exact Or.inl h1
        · refine Or.inr ⟨h2, ?_⟩
          obtain ⟨l, _, _, _, _, _, _, _, _, _, hitr, _⟩ :=
            psoIterate_facts cfg f rng iterate st s hiter
          rw [h3, hitr]
          omega

theorem psoLoop_curlink (cfg : PSOConfig) (f : Mat → ℚ) (rng : Nat → ℚ) (iterate : Mat) :
    ∀ (n : Nat) (st : PSOState) (r : RunResult),
      psoLoop cfg f rng iterate n st = some r →
      (∀ rec, st.history.getLast? = some rec → rec.evals ≠ [] →
        st.cur = rec.evals.getLast?) →
      ∀ rec, r.history.getLast? = some rec → rec.evals ≠ [] →
        r.lastCur = rec.evals.getLast?
  | 0, st, r, h, hlink => by
      simp only [psoLoop, Option.some.injEq] at h
      subst h
      exact hlink
  | n + 1, st, r, h, hlink => by
      simp only [psoLoop, Option.bind_eq_bind, Option.bind_eq_some] at h
      obtain ⟨s, hiter, c, hcur, hif⟩ := h
      obtain ⟨l, hhist, _, _, _, _, _, _, hcur1, _, _, hiev⟩ :=
        psoIterate_facts cfg f rng iterate st s hiter
      have hlink' : ∀ rec, s.history.getLast? = some rec → rec.evals ≠ [] →
          s.cur = rec.evals.getLast? := by
        intro rec hrec hne
        rw [hhist, List.getLast?_concat] at hrec
        injection hrec with hrec
        subst hrec
        exact hcur1 hne
      by_cases hc : c < cfg.tolerance
      · rw [if_pos hc] at hif
        injection hif with hif
        subst hif
        simpa [mkResult] using hlink'
      · rw [if_neg hc] at hif
        exact psoLoop_curlink cfg f rng iterate n s r hif hlink'

theorem psoIterate_inv6 (cfg : PSOConfig) (f : Mat → ℚ) (rng : Nat → ℚ) (iterate : Mat)
    (st st' : PSOState) (h : psoIterate cfg f rng iterate st = some st')
    (hi : Inv6 st) : Inv6 st' := by
  obtain ⟨l, hhist, hgdef, hbsdef, hle, hbpk, hub, hlen, hcur1, hcur0, hitr, hiev⟩ :=
    psoIterate_facts cfg f rng iterate st st' h
  obtain ⟨h1, h2, h3, h4⟩ := hi
  have hgle : st'.lastGlobal ≤ st.lastGlobal := by
    rw [hgdef]
    by_cases hc : st'.lastInd < st.lastGlobal
    · rw [if_pos hc]; exact le_of_lt hc
    · rw [if_neg hc]
  have hgind : st'.lastGlobal ≤ st'.lastInd := by
    rw [hgdef]
    by_cases hc : st'.lastInd < st.lastGlobal
    · rw [if_pos hc]
    · rw [if_neg hc]; exact le_of_not_lt hc
  refine ⟨?_, ?_, ?_, ?_⟩
  · intro s t rs rt hst hs ht
    rw [hhist] at hs ht
    rcases get?_append_concat _ _ _ _ ht with ⟨htl, htg⟩ | ⟨hteq, hrt⟩
    · rcases get?_append_concat _ _ _ _ hs with ⟨_, hsg⟩ | ⟨hseq, _⟩
      · exact h1 s t rs rt hst hsg htg
      · omega
    · subst hrt
      rcases get?_append_concat _ _ _ _ hs with ⟨_, hsg⟩ | ⟨_, hrs⟩
      · exact le_trans hgle (h4 s rs hsg)
      · subst hrs
        exact le_refl _
  · intro s t rs rt hst hs ht v hv
    rw [hhist] at hs ht
    rcases get?_append_concat _ _ _ _ ht with ⟨htl, htg⟩ | ⟨hteq, hrt⟩
    · rcases get?_append_concat _ _ _ _ hs with ⟨_, hsg⟩ | ⟨hseq, _⟩
      · exact h2 s t rs rt hst hsg htg v hv
      · omega
    · subst hrt
      rcases get?_append_concat _ _ _ _ hs with ⟨_, hsg⟩ | ⟨_, hrs⟩
      · exact le_trans hgind (le_trans hle (h3 s rs hsg v hv))
      · subst hrs
        exact le_trans hgind (hub v hv)
  · intro s rs hs v hv
    rw [hhist] at hs
    rcases get?_append_concat _ _ _ _ hs with ⟨_, hsg⟩ | ⟨_, hrs⟩
    · exact le_trans hle (h3 s rs hsg v hv)
    · subst hrs
      exact hub v hv
  · intro s rs hs
    rw [hhist] at hs
    rcases get?_append_concat _ _ _ _ hs with ⟨_, hsg⟩ | ⟨_, hrs⟩
    · exact le_trans hgle (h4 s rs hsg)
    · subst hrs
      exact le_refl _

theorem psoLoop_inv6 (cfg : PSOConfig) (f : Mat → ℚ) (rng : Nat → ℚ) (iterate : Mat) :
    ∀ (n : Nat) (st : PSOState) (r : RunResult),
      psoLoop cfg f rng iterate n st = some r → Inv6 st →
      GlobalMono r.history ∧ GlobalBelowEvals r.history
  | 0, st, r, h, hi => by
      simp only [psoLoop, Option.some.injEq] at h
      subst h
      exact ⟨hi.1, hi.2.1⟩
  | n + 1, st, r, h, hi => by
      simp only [psoLoop, Option.bind_eq_bind, Option.bind_eq_some] at h
      obtain ⟨s, hiter, c, hcur, hif⟩ := h
      have hi' := psoIterate_inv6 cfg f rng iterate st s hiter hi
      by_cases hc : c < cfg.tolerance
      · rw [if_pos hc] at hif
        injection hif with hif
        subst hif
        exact ⟨hi'.1, hi'.2.1⟩
      · rw [if_neg hc] at hif
        exact psoLoop_inv6 cfg f rng iterate n s r hif hi'

theorem psoIterate_inv7 (cfg : PSOConfig) (f : Mat → ℚ) (rng : Nat → ℚ) (iterate : Mat)
    (st st' : PSOState) (h : psoIterate cfg f rng iterate st = some st')
    (hli : st.lastInd = st.lastGlobal) (hbp : st.bp = st.bs)
    (hco : Coincide st.history) :
    st'.lastInd = st'.lastGlobal ∧ st'.bp = st'.bs ∧ Coincide st'.history := by
  obtain ⟨l, hhist, hgdef, hbsdef, hle, hbpk, hub, hlen, hcur1, hcur0, hitr, hiev⟩ :=
    psoIterate_facts cfg f rng iterate st st' h
  by_cases hc : st'.lastInd < st.lastGlobal
  · have hg : st'.lastGlobal = st'.lastInd := by rw [hgdef, if_pos hc]
    have hbs' : st'.bs = st'.bp := by rw [hbsdef, if_pos hc]
    refine ⟨hg.symm, hbs'.symm, ?_⟩
    intro rec hrec
    rw [hhist] at hrec
    rcases List.mem_append.mp hrec with hrec | hrec
    · exact hco rec hrec
    · simp only [List.mem_singleton] at hrec
      subst hrec
      exact ⟨hg.symm, hbs'.symm⟩
  · have h1 : st'.lastInd = st.lastInd :=
      le_antisymm hle (by rw [hli]; exact le_of_not_lt hc)
    have hg : st'.lastGlobal = st.lastGlobal := by rw [hgdef, if_neg hc]
    have hbp' : st'.bp = st.bp := hbpk (le_of_eq h1.symm)
    have hbs' : st'.bs = st.bs := by rw [hbsdef, if_neg hc]
    refine ⟨by rw [h1, hg, hli], by rw [hbp', hbs', hbp], ?_⟩
    intro rec hrec
    rw [hhist] at hrec
    rcases List.mem_append.mp hrec with hrec | hrec
    · exact hco rec hrec
    · simp only [List.mem_singleton] at hrec
      subst hrec
      exact ⟨by rw [h1, hg, hli], by rw [hbp', hbs', hbp]⟩

theorem psoLoop_inv7 (cfg : PSOConfig) (f : Mat → ℚ) (rng : Nat → ℚ) (iterate : Mat) :
    ∀ (n : Nat) (st : PSOState) (r : RunResult),
      psoLoop cfg f rng iterate n st = some r →
      st.lastInd = st.lastGlobal → st.bp = st.bs → Coincide st.history →
      Coincide r.history
  | 0, st, r, h, hli, hbp, hco => by
      simp only [psoLoop, Option.some.injEq] at h
      subst h
      exact hco
  | n + 1, st, r, h, hli, hbp, hco => by
      simp only [psoLoop, Option.bind_eq_bind, Option.bind_eq_some] at h
      obtain ⟨s, hiter, c, hcur, hif⟩ := h
      obtain ⟨hli', hbp', hco'⟩ := psoIterate_inv7 cfg f rng iterate st s hiter hli hbp hco
      by_cases hc : c < cfg.tolerance
      · rw [if_pos hc] at hif
        injection hif with hif
        subst hif
        exact hco'
      · rw [if_neg hc] at hif
        exact psoLoop_inv7 cfg f rng iterate n s r hif hli' hbp' hco'

/-! ### A successful first iteration from constant positions -/

theorem sweepLoop_const (f : Mat → ℚ) (P : Mat) :
    ∀ (n : Nat) (st : PSOState), (∀ k, k < n → st.positions.get? k = some P) →
      ∃ s, sweepLoop f n st = some s ∧ s.positions = st.positions ∧
        s.velocities = st.velocities ∧ s.bs = st.bs ∧ s.idx = st.idx ∧
        s.itersRun = st.itersRun ∧ s.lastGlobal = st.lastGlobal ∧
        (s.bp = st.bp ∨ s.bp = P) ∧ (n ≠ 0 → s.cur = some (f P))
  | 0, st, _ =>
      ⟨st, rfl, rfl, rfl, rfl, rfl, rfl, rfl, Or.inl rfl, fun hz => absurd rfl hz⟩
  | n + 1, st, hall => by
      obtain ⟨s, hs, h1, h2, h3, h4, h5, h6, h7, _⟩ :=
        sweepLoop_const f P n st (fun k hk => hall k (Nat.lt_succ_of_lt hk))
      have hp : s.positions.get? n = some P := by
        rw [h1]; exact hall n (Nat.lt_succ_self n)
      by_cases hc : f P < s.lastInd
      · refine ⟨{ s with cur := some (f P), evals := s.evals + 1, iterEvals := s.iterEvals ++ [f P], bp := P, lastInd := f P }, ?_, h1, h2, h3, h4, h5, h6, Or.inr rfl, fun _ => rfl⟩
        simp only [sweepLoop, Option.bind_eq_bind, hs, Option.some_bind, hp, if_pos hc]
      · refine ⟨{ s with cur := some (f P), evals := s.evals + 1, iterEvals := s.iterEvals ++ [f P] }, ?_, h1, h2, h3, h4, h5, h6, h7, fun _ => rfl⟩
        simp only [sweepLoop, Option.bind_eq_bind, hs, Option.some_bind, hp, if_neg hc]

theorem psoIterate_const (cfg : PSOConfig) (f : Mat → ℚ) (rng : Nat → ℚ)
    (iterate : Mat) (st : PSOState)
    (hall : ∀ k, k < cfg.dimension → st.positions.get? k = some iterate)
    (hbp0 : st.bp = iterate) (hbs0 : st.bs = iterate)
    (hlp : st.positions.length = cfg.dimension)
    (hlv : st.velocities.length = cfg.dimension)
    (hwf : iterate.data.length = iterate.rows * iterate.cols)
    (hdim : cfg.dimension ≤ iterate.rows * iterate.cols)
    (hd : 1 ≤ cfg.dimension) :
    ∃ st', psoIterate cfg f rng iterate st = some st' ∧
      st'.cur = some (f iterate) ∧ st'.itersRun = st.itersRun + 1 := by
  obtain ⟨s, hs, h1, h2, h3, h4, h5, h6, h7, h8⟩ :=
    sweepLoop_const f iterate cfg.dimension { st with iterEvals := [] }
      (fun k hk => hall k hk)
  have hcur : s.cur = some (f iterate) := h8 (by omega)
  have hbp : s.bp = iterate := by
    rcases h7 with h | h
    · rw [h]; exact hbp0
    · exact h
  have hbound : ∀ (b1 b2 : Mat) (r1 r2 : Mat), b1 = iterate → b2 = iterate →
      ∃ vels, inertiaLoop s.positions b1 b2
        cfg.interiaWeight cfg.cognitiveAcceleration cfg.socialAcceleration
        r1 r2 cfg.dimension s.velocities = some vels := by
    intro b1 b2 r1 r2 hb1 hb2
    refine inertiaLoop_isSome_of s.positions b1 b2 _ _ _ r1 r2 cfg.dimension s.velocities ?_
    intro i hi
    refine ⟨?_, ?_, ?_, ?_⟩
    · rw [h1]; show i < st.positions.length; omega
    · rw [h2]; show i < st.velocities.length; omega
    · rw [hb1, hwf]; omega
    · rw [hb2, hwf]; omega
  by_cases hb : s.lastInd < s.lastGlobal
  · obtain ⟨vels, hvels⟩ := hbound s.bp s.bp
      (drawMat rng s.idx iterate.rows iterate.cols)
      (drawMat rng (s.idx + iterate.rows * iterate.cols) iterate.rows iterate.cols)
      hbp hbp
    refine ⟨⟨List.zipWith Mat.add s.positions vels, vels, s.bp, s.bp, s.lastInd, s.lastInd, s.cur, s.idx + 2 * (iterate.rows * iterate.cols), s.evals, s.itersRun + 1, s.iterEvals, s.history ++ [⟨s.iterEvals, s.lastInd, s.lastInd, s.bp, s.bp, List.zipWith Mat.add s.positions vels, vels⟩]⟩, ?_, hcur, ?_⟩
    · simp only [psoIterate, Option.bind_eq_bind, hs, Option.some_bind, if_pos hb,
        InertiaWeight.Update, hvels, Option.some_bind]
    · show s.itersRun + 1 = st.itersRun + 1
      rw [h5]
  · obtain ⟨vels, hvels⟩ := hbound s.bp s.bs
      (drawMat rng s.idx iterate.rows iterate.cols)
      (drawMat rng (s.idx + iterate.rows * iterate.cols) iterate.rows iterate.cols)
      hbp (by rw [h3]; exact hbs0)
    refine ⟨⟨List.zipWith Mat.add s.positions vels, vels, s.bp, s.bs, s.lastInd, s.lastGlobal, s.cur, s.idx + 2 * (iterate.rows * iterate.cols), s.evals, s.itersRun + 1, s.iterEvals, s.history ++ [⟨s.iterEvals, s.lastInd, s.lastGlobal, s.bp, s.bs, List.zipWith Mat.add s.positions vels, vels⟩]⟩, ?_, hcur, ?_⟩
    · simp only [psoIterate, Option.bind_eq_bind, hs, Option.some_bind, if_neg hb,
        InertiaWeight.Update, hvels, Option.some_bind]
    · show s.itersRun + 1 = st.itersRun + 1
      rw [h5]

/-! ### Concrete runs used by witnesses -/

theorem run_cfgW : Optimize cfgW fW rngW itW = some rW := by
  norm_num [Optimize, psoLoop, psoIterate, sweepLoop, inertiaLoop, InertiaWeight.Update,
    drawMat, mkResult, Mat.add, Mat.smul, Mat.hadamard, Mat.scalarSub, Mat.lin, DBL_MAX,
    cfgW, fW, rngW, itW, rW, List.range_succ]

theorem run_updateC3 :
    InertiaWeight.Update rngOne 0 2 1 [zeroC3] [zeroC3] bpC3 zeroC3 0 1 0 1 =
      some [⟨2, 1, [3, 3]⟩] := by
  norm_num [InertiaWeight.Update, inertiaLoop, drawMat, Mat.add, Mat.smul, Mat.hadamard,
    Mat.scalarSub, Mat.lin, zeroC3, bpC3, rngOne, List.range_succ, List.replicate]

/-! ### Claim theorems -/

/-- C1 (code bug in `PSOType::Optimize`): the by-reference starting point is
never written back.  On the run with configuration `cfgC1` (one particle,
inertia 1, zero accelerations, two iterations), objective `fC1` and
starting point `[2]`, `Optimize` returns -4, the best-known swarm position
is `[4]` and attains the returned objective value, yet on return the
starting-point argument still holds the original `[2]`, which differs from
the best-known position — contradicting the header documentation that the
starting point "will be modified to store the finishing point". -/
theorem c1_iterate_not_best :
    (Optimize cfgC1 fC1 rngW itC1).map
      (fun r => (r.value, r.iterate, r.bestPosition)) =
      some (-4, ⟨1, 1, [2]⟩, ⟨1, 1, [4]⟩) ∧
    fC1 ⟨1, 1, [4]⟩ = -4 ∧
    (⟨1, 1, [2]⟩ : Mat) ≠ ⟨1, 1, [4]⟩ := by
  refine ⟨?_, by norm_num [fC1, List.headI], by decide⟩
  norm_num [Optimize, psoLoop, psoIterate, sweepLoop, inertiaLoop, InertiaWeight.Update,
    drawMat, mkResult, Mat.add, Mat.smul, Mat.hadamard, Mat.scalarSub, Mat.lin, DBL_MAX,
    cfgC1, fC1, rngW, itC1, List.range_succ]

/-- C2 (code bug in `PSOType::Optimize`): with `maxIterations = 0` the
iteration loop does not run forever — it runs zero times.  On the concrete
run with configuration `cfgC2` (`maxIterations = 0`), `Optimize` returns
immediately with `DBL_MAX` (the never-updated `lastObjectiveGlobal`), zero
iterations executed and zero objective evaluations — contradicting the
header documentation that 0 means "no limit". -/
theorem c2_zero_maxIterations_run :
    (Optimize cfgC2 fW rngW itW).map (fun r => (r.value, r.itersRun, r.evals)) =
      some (DBL_MAX, 0, 0) := by
  norm_num [Optimize, psoLoop, psoIterate, sweepLoop, inertiaLoop, InertiaWeight.Update,
    drawMat, mkResult, DBL_MAX, cfgC2, fW, rngW, itW]

/-- C8: `Optimize` is deterministic with respect to its random source: two
runs with equal configuration, equal objective, pointwise-equal uniform
draw sequences and equal starting points produce equal results — in
particular equal position/velocity trajectories (the history field of the
result) and equal returned objective values. -/
theorem c8_deterministic (cfg cfg' : PSOConfig) (f f' : Mat → ℚ)
    (rng rng' : Nat → ℚ) (it it' : Mat)
    (hcfg : cfg = cfg') (hf : f = f') (hrng : ∀ n, rng n = rng' n) (hit : it = it') :
    Optimize cfg f rng it = Optimize cfg' f' rng' it' := by
  subst hcfg
  subst hf
  subst hit
  rw [funext hrng]

/-- Witness for C8 at a concrete configuration, objective, stream and
starting point. -/
theorem c8_witness :
    cfgW = cfgW ∧ fW = fW ∧ (∀ n, rngW n = rngW n) ∧ itW = itW ∧
    Optimize cfgW fW rngW itW = Optimize cfgW fW rngW itW :=
  ⟨rfl, rfl, fun _ => rfl, rfl,
   c8_deterministic cfgW cfgW fW fW rngW rngW itW itW rfl rfl (fun _ => rfl) rfl⟩

/-- C10: with `populationSize = 0` (and at least one iteration allowed),
`Optimize` is undefined: the initialization of the best positions reads
slice 0 of an empty cube, so the embedded run returns `none`; moreover, in
any state whose `currentObjective` was never written, an iteration of the
loop reaches the termination check reading the uninitialized value and is
likewise undefined.  Hence `populationSize ≥ 1` is necessary for every
memory access and comparison in `Optimize` to be well-defined. -/
theorem c10_zero_population (cfg : PSOConfig) (f : Mat → ℚ) (rng : Nat → ℚ)
    (iterate : Mat) (hdim : cfg.dimension = 0) (_hm : 1 ≤ cfg.maxIterations) :
    Optimize cfg f rng iterate = none ∧
    (∀ (n : Nat) (st : PSOState), st.cur = none →
      psoLoop cfg f rng iterate (n + 1) st = none) := by
  constructor
  · simp [Optimize, hdim]
  · intro n st hcur
    by_cases hb : st.lastInd < st.lastGlobal
    · simp [psoLoop, psoIterate, sweepLoop, InertiaWeight.Update, inertiaLoop, hdim, hb, hcur]
    · simp [psoLoop, psoIterate, sweepLoop, InertiaWeight.Update, inertiaLoop, hdim, hb, hcur]

/-- Witness for C10: the concrete zero-population configuration `cfgC10`
satisfies the hypotheses, `Optimize` is undefined on it, and one loop
iteration from the uninitialized state `stC10` is undefined at the
termination check. -/
theorem c10_witness :
    cfgC10.dimension = 0 ∧ 1 ≤ cfgC10.maxIterations ∧
    Optimize cfgC10 fW rngW itW = none ∧
    psoLoop cfgC10 fW rngW itW 1 stC10 = none :=
  ⟨rfl, by decide,
   (c10_zero_population cfgC10 fW rngW itW rfl (by decide)).1,
   (c10_zero_population cfgC10 fW rngW itW rfl (by decide)).2 0 stC10 rfl⟩

/-- C5: whenever `Optimize` returns a value, either the last-evaluated
objective (the `currentObjective` variable, which holds the value from the
final particle of the last sweep, not the best-so-far) was strictly below
`tolerance` and that very value is returned, or the loop ran all
`maxIterations` iterations and the final `lastObjectiveGlobal` is returned.
Moreover the returned `currentObjective` is exactly the last entry of the
final iteration's list of evaluated values. -/
theorem c5_termination_semantics (cfg : PSOConfig) (f : Mat → ℚ) (rng : Nat → ℚ)
    (iterate : Mat) (r : RunResult) (h : Optimize cfg f rng iterate = some r) :
    ((∃ c, r.lastCur = some c ∧ c < cfg.tolerance ∧ r.value = c) ∨
     (r.value = r.lastGlobal ∧ r.itersRun = cfg.maxIterations)) ∧
    (∀ rec, r.history.getLast? = some rec → rec.evals ≠ [] →
      r.lastCur = rec.evals.getLast?) := by
  simp only [Optimize, Option.bind_eq_bind, Option.bind_eq_some] at h
  obtain ⟨bp, hbp, bs, hbs, hloop⟩ := h
  constructor
  · have hc := psoLoop_char cfg f rng iterate cfg.maxIterations _ r hloop
    simpa using hc
  · refine psoLoop_curlink cfg f rng iterate cfg.maxIterations _ r hloop ?_
    intro rec hrec
    simp at hrec

/-- Witness for C5: a concrete successful run satisfying the termination
characterization. -/
theorem c5_witness :
    Optimize cfgW fW rngW itW = some rW ∧
    (((∃ c, rW.lastCur = some c ∧ c < cfgW.tolerance ∧ rW.value = c) ∨
      (rW.value = rW.lastGlobal ∧ rW.itersRun = cfgW.maxIterations)) ∧
     (∀ rec, rW.history.getLast? = some rec → rec.evals ≠ [] →
       rW.lastCur = rec.evals.getLast?)) :=
  ⟨run_cfgW, c5_termination_semantics cfgW fW rngW itW rW run_cfgW⟩

/-- C6: in every successful run of `Optimize`, the per-iteration global
best objective (`lastObjectiveGlobal` after each iteration's global-best
update step) is monotonically non-increasing across iterations, and at each
iteration it is a lower bound of every objective value evaluated so far in
the run (this iteration's and all earlier ones'). -/
theorem c6_global_best_monotone (cfg : PSOConfig) (f : Mat → ℚ) (rng : Nat → ℚ)
    (iterate : Mat) (r : RunResult) (h : Optimize cfg f rng iterate = some r) :
    GlobalMono r.history ∧ GlobalBelowEvals r.history := by
  simp only [Optimize, Option.bind_eq_bind, Option.bind_eq_some] at h
  obtain ⟨bp, hbp, bs, hbs, hloop⟩ := h
  refine psoLoop_inv6 cfg f rng iterate cfg.maxIterations _ r hloop ⟨?_, ?_, ?_, ?_⟩
  · intro s t rs rt hst hs ht
    simp [List.get?] at hs
  · intro s t rs rt hst hs ht v hv
    simp [List.get?] at hs
  · intro s rs hs v hv
    simp [List.get?] at hs
  · intro s rs hs
    simp [List.get?] at hs

/-- Witness for C6: a concrete successful run whose history is
non-increasing and bounded by its evaluations. -/
theorem c6_witness :
    Optimize cfgW fW rngW itW = some rW ∧
    GlobalMono rW.history ∧ GlobalBelowEvals rW.history :=
  ⟨run_cfgW, (c6_global_best_monotone cfgW fW rngW itW rW run_cfgW).1,
   (c6_global_best_monotone cfgW fW rngW itW rW run_cfgW).2⟩

/-- C7: with `populationSize = 1`, after each iteration's best-update steps
the personal-best tracking coincides with the global-best tracking, both in
objective value (`indAfter = globalAfter`) and in position
(`bpAfter = bsAfter`), in every record of the run history. -/
theorem c7_single_particle_coincide (cfg : PSOConfig) (f : Mat → ℚ) (rng : Nat → ℚ)
    (iterate : Mat) (r : RunResult) (_hdim : cfg.dimension = 1)
    (h : Optimize cfg f rng iterate = some r) : Coincide r.history := by
  simp only [Optimize, Option.bind_eq_bind, Option.bind_eq_some] at h
  obtain ⟨bp, hbp, bs, hbs, hloop⟩ := h
  have hbpbs : bp = bs := by
    rw [hbp] at hbs
    injection hbs
  refine psoLoop_inv7 cfg f rng iterate cfg.maxIterations _ r hloop rfl hbpbs ?_
  intro rec hrec
  simp at hrec

/-- Witness for C7: a concrete one-particle run whose history coincides. -/
theorem c7_witness :
    cfgW.dimension = 1 ∧ Optimize cfgW fW rngW itW = some rW ∧ Coincide rW.history :=
  ⟨rfl, run_cfgW, c7_single_particle_coincide cfgW fW rngW itW rW rfl run_cfgW⟩

/-- C4 counterexample: the claim fails as stated for arbitrary
`populationSize ≥ 1`.  With population size 2 and a 1×1 starting point, the
objective returns 0 (< tolerance 1) on the very first evaluation, yet
`Optimize` returns no value at all: before the termination check is ever
reached, the velocity update reads linear element 1 of the 1-element best
matrices, out of bounds. -/
theorem c4_claim_counterexample :
    1 ≤ cfgC4.dimension ∧ fW itW < cfgC4.tolerance ∧
    Optimize cfgC4 fW rngW itW = none := by
  refine ⟨by decide, by decide, ?_⟩
  norm_num [Optimize, psoLoop, psoIterate, sweepLoop, inertiaLoop, InertiaWeight.Update,
    drawMat, mkResult, Mat.add, Mat.smul, Mat.hadamard, Mat.scalarSub, Mat.lin, DBL_MAX,
    cfgC4, fW, rngW, itW, List.range_succ]

/-- C4 (amended): if the objective value at the starting point is strictly
below `tolerance` — so the very first evaluation of the very first particle
in the very first iteration is below tolerance, and with a pure objective
so is every evaluation of that iteration — then `Optimize` returns that
value after exactly one iteration, provided a first iteration exists
(`maxIterations ≥ 1`) and the population size is between 1 and the element
count of the starting point (otherwise the velocity update reads out of
bounds, cf. C9). -/
theorem c4_early_termination (cfg : PSOConfig) (f : Mat → ℚ) (rng : Nat → ℚ)
    (iterate : Mat)
    (hd : 1 ≤ cfg.dimension) (hm : 1 ≤ cfg.maxIterations)
    (hwf : iterate.data.length = iterate.rows * iterate.cols)
    (hdim : cfg.dimension ≤ iterate.rows * iterate.cols)
    (htol : f iterate < cfg.tolerance) :
    ∃ r, Optimize cfg f rng iterate = some r ∧ r.value = f iterate ∧ r.itersRun = 1 := by
  obtain ⟨m, hmeq⟩ : ∃ m, cfg.maxIterations = m + 1 := ⟨cfg.maxIterations - 1, by omega⟩
  have hg0 : (List.replicate cfg.dimension iterate).get? 0 = some iterate :=
    get?_replicate_of_lt iterate cfg.dimension 0 hd
  obtain ⟨st', hst', hcur', hiter'⟩ := psoIterate_const cfg f rng iterate
    ⟨List.replicate cfg.dimension iterate, List.replicate cfg.dimension iterate, iterate,
     iterate, DBL_MAX, DBL_MAX, none, 0, 0, 0, [], []⟩
    (fun k hk => get?_replicate_of_lt iterate cfg.dimension k hk)
    rfl rfl (List.length_replicate _ _) (List.length_replicate _ _) hwf hdim hd
  refine ⟨mkResult (f iterate) iterate st', ?_, rfl, ?_⟩
  · simp only [Optimize, Option.bind_eq_bind, hg0, Option.some_bind, hmeq]
    simp only [psoLoop, Option.bind_eq_bind, hst', Option.some_bind, hcur', if_pos htol]
  · simpa using hiter'

/-- Witness for C4 (amended): the standard one-particle run hits the
tolerance on its first evaluation and stops after one iteration. -/
theorem c4_witness :
    1 ≤ cfgW.dimension ∧ 1 ≤ cfgW.maxIterations ∧
    itW.data.length = itW.rows * itW.cols ∧ cfgW.dimension ≤ itW.rows * itW.cols ∧
    fW itW < cfgW.tolerance ∧
    (∃ r, Optimize cfgW fW rngW itW = some r ∧ r.value = fW itW ∧ r.itersRun = 1) :=
  ⟨by decide, by decide, by decide, by decide, by decide,
   c4_early_termination cfgW fW rngW itW (by decide) (by decide) (by decide) (by decide)
     (by decide)⟩

/-- C3 counterexample: the claim's velocity formula is wrong about how the
best positions enter.  On a 2×1 particle with best-particle matrix
`[3, 5]`, inertia 0, `c1 = 1`, `c2 = 0` and all draws equal to 1, the code
produces velocity `[3, 3]` — it broadcasts the scalar linear element
`bestParticlePosition[0] = 3` — whereas the claim's full-matrix elementwise
subtraction would produce `[3, 5]`. -/
theorem c3_claim_counterexample :
    InertiaWeight.Update rngOne 0 2 1 [zeroC3] [zeroC3] bpC3 zeroC3 0 1 0 1 =
      some [⟨2, 1, [3, 3]⟩] ∧
    UpdateSpecC3 rngOne 0 2 1 [zeroC3] [zeroC3] bpC3 zeroC3 0 1 0 1 =
      some [⟨2, 1, [3, 5]⟩] ∧
    ([(⟨2, 1, [3, 3]⟩ : Mat)] : List Mat) ≠ [⟨2, 1, [3, 5]⟩] := by
  refine ⟨run_updateC3, ?_, by decide⟩
  norm_num [UpdateSpecC3, drawMat, Mat.add, Mat.smul, Mat.hadamard, Mat.sub, zeroC3,
    bpC3, rngOne, List.range_succ, List.replicate, List.mapM, List.mapM.loop]

/-- C3 (amended): in every successful call of `InertiaWeight.Update`, the
two uniform random matrices are drawn once (at stream positions `idx` and
`idx + R*C`) and reused across every particle of the call, and particle
`k`'s new velocity equals
`ω·v[k] + c1·r1 ⊙ (pb[k] − pos[k]) + c2·r2 ⊙ (gb[k] − pos[k])`, where
`pb[k]`, `gb[k]` are the scalar `k`-th linear elements of the personal-best
and global-best matrices, broadcast against the particle's 2-D shape. -/
theorem c3_scalar_broadcast (rng : Nat → ℚ) (idx R C : Nat)
    (positions vels : List Mat) (bp bs : Mat) (w c1 c2 : ℚ) (dim : Nat)
    (out : List Mat) (hlv : vels.length = dim)
    (h : InertiaWeight.Update rng idx R C positions vels bp bs w c1 c2 dim = some out) :
    ∀ k, k < dim → ∃ p v pb gb,
      positions.get? k = some p ∧ vels.get? k = some v ∧
      bp.lin k = some pb ∧ bs.lin k = some gb ∧
      out.get? k = some (Mat.add
        (Mat.add (Mat.smul w v)
          (Mat.smul c1 (Mat.hadamard (drawMat rng idx R C) (Mat.scalarSub pb p))))
        (Mat.smul c2 (Mat.hadamard (drawMat rng (idx + R * C) R C)
          (Mat.scalarSub gb p)))) := by
  intro k hk
  simp only [InertiaWeight.Update] at h
  have hget := inertiaLoop_get? positions bp bs w c1 c2 _ _ dim vels out h k
  rw [if_pos hk] at hget
  have hkl : k < out.length := by
    rw [inertiaLoop_length positions bp bs w c1 c2 _ _ dim vels out h, hlv]
    exact hk
  obtain ⟨x, hx⟩ := get?_eq_some_of_lt out k hkl
  rw [hx] at hget
  obtain ⟨p, hp, v, hv, pb, hpb, gb, hgb, hform⟩ := by
    have hg2 := hget.symm
    simpa only [inertiaAt, Option.bind_eq_bind, Option.bind_eq_some, Option.some.injEq]
      using hg2
  exact ⟨p, v, pb, gb, hp, hv, hpb, hgb, by rw [hx, ← hform]⟩

/-- Witness for C3 (amended): the concrete call of `run_updateC3` satisfies
the scalar-broadcast characterization. -/
theorem c3_witness :
    ([zeroC3] : List Mat).length = 1 ∧
    InertiaWeight.Update rngOne 0 2 1 [zeroC3] [zeroC3] bpC3 zeroC3 0 1 0 1 =
      some [⟨2, 1, [3, 3]⟩] ∧
    (∀ k, k < 1 → ∃ p v pb gb,
      ([zeroC3] : List Mat).get? k = some p ∧ ([zeroC3] : List Mat).get? k = some v ∧
      bpC3.lin k = some pb ∧ zeroC3.lin k = some gb ∧
      ([(⟨2, 1, [3, 3]⟩ : Mat)] : List Mat).get? k = some (Mat.add
        (Mat.add (Mat.smul 0 v)
          (Mat.smul 1 (Mat.hadamard (drawMat rngOne 0 2 1) (Mat.scalarSub pb p))))
        (Mat.smul 0 (Mat.hadamard (drawMat rngOne (0 + 2 * 1) 2 1)
          (Mat.scalarSub gb p))))) :=
  ⟨rfl, run_updateC3,
   c3_scalar_broadcast rngOne 0 2 1 [zeroC3] [zeroC3] bpC3 zeroC3 0 1 0 1
     [⟨2, 1, [3, 3]⟩] rfl run_updateC3⟩

/-- C9: under well-formed shapes (`positions` and `vels` hold `dim` slices,
the best matrices hold `R*C` entries), the particle loop of
`InertiaWeight::Update` performs all of its accesses in bounds exactly when
`dim ≤ R*C` — with a larger population it reads the best matrices out of
bounds — and particle `k`'s updated velocity depends on the best matrices
only through their scalar `k`-th linear elements. -/
theorem c9_linear_index_bounds (positions vels : List Mat) (bp bs : Mat)
    (w c1 c2 : ℚ) (r1 r2 : Mat) (dim R C : Nat)
    (hp : positions.length = dim) (hv : vels.length = dim)
    (hbp : bp.data.length = R * C) (hbs : bs.data.length = R * C) :
    ((inertiaLoop positions bp bs w c1 c2 r1 r2 dim vels).isSome ↔ dim ≤ R * C) ∧
    (∀ (bp' bs' : Mat) (out out' : List Mat) (k : Nat), k < dim →
      inertiaLoop positions bp bs w c1 c2 r1 r2 dim vels = some out →
      inertiaLoop positions bp' bs' w c1 c2 r1 r2 dim vels = some out' →
      bp.lin k = bp'.lin k → bs.lin k = bs'.lin k →
      out.get? k = out'.get? k) := by
  constructor
  · constructor
    · intro hsome
      obtain ⟨out, hout⟩ := Option.isSome_iff_exists.mp hsome
      by_cases hd : dim = 0
      · omega
      · have hb := inertiaLoop_bp_bound positions bp bs w c1 c2 r1 r2 dim vels out hout
          (dim - 1) (by omega)
        rw [hbp] at hb
        omega
    · intro hle
      have hbnd : ∀ i, i < dim →
          i < positions.length ∧ i < vels.length ∧ i < bp.data.length ∧ i < bs.data.length := by
        intro i hi
        refine ⟨?_, ?_, ?_, ?_⟩
        · rw [hp]; exact hi
        · rw [hv]; exact hi
        · rw [hbp]; omega
        · rw [hbs]; omega
      obtain ⟨out, hout⟩ :=
        inertiaLoop_isSome_of positions bp bs w c1 c2 r1 r2 dim vels hbnd
      simp [hout]
  · intro bp' bs' out out' k hk hout hout' hl1 hl2
    have h1 := inertiaLoop_get? positions bp bs w c1 c2 r1 r2 dim vels out hout k
    have h2 := inertiaLoop_get? positions bp' bs' w c1 c2 r1 r2 dim vels out' hout' k
    rw [if_pos hk] at h1 h2
    rw [h1, h2]
    simp only [inertiaAt, hl1, hl2]

/-- Witness for C9 at concrete well-formed shapes: one 1×1 particle, for
which the loop succeeds and indeed `1 ≤ 1`. -/
theorem c9_witness :
    ([itW] : List Mat).length = 1 ∧ itW.data.length = 1 * 1 ∧
    ((inertiaLoop [itW] itW itW 1 0 0 itW itW 1 [itW]).isSome ↔ 1 ≤ 1 * 1) :=
  ⟨rfl, rfl,
   (c9_linear_index_bounds [itW] [itW] itW itW 1 0 0 itW itW 1 1 1 rfl rfl rfl rfl).1⟩
